import Mathlib

/-!
Verification of the RRG dashboard pipeline (src/main.py) against its
natural-language specification.

The script computes on pandas float series in which NaN marks a missing
value.  We embed a float value as `PVal`: a finite value is an exact
rational (the claims under scrutiny are exact-arithmetic properties, so
rounding is not modelled), and the special values `pinf`, `ninf`, `nan`
follow IEEE-754 semantics for the operations the script uses (negative
zero is not modelled; no claim distinguishes it).  A date-aligned series
is a `List PVal`; all columns of one price table share one date index,
hence equal lengths.
-/

attribute [local semireducible] Rat.add Rat.mul Rat.inv Rat.sub

set_option maxRecDepth 40000

inductive PVal where
  | num (q : ℚ)
  | pinf
  | ninf
  | nan
deriving DecidableEq

/-- IEEE addition on embedded floats (exact arithmetic on finite values). -/
def padd : PVal → PVal → PVal
  | .nan, _ => .nan
  | .num _, .nan => .nan
  | .pinf, .nan => .nan
  | .ninf, .nan => .nan
  | .num a, .num b => .num (a + b)
  | .num _, .pinf => .pinf
  | .num _, .ninf => .ninf
  | .pinf, .num _ => .pinf
  | .ninf, .num _ => .ninf
  | .pinf, .pinf => .pinf
  | .ninf, .ninf => .ninf
  | .pinf, .ninf => .nan
  | .ninf, .pinf => .nan

/-- IEEE multiplication on embedded floats. -/
def pmul : PVal → PVal → PVal
  | .nan, _ => .nan
  | .num _, .nan => .nan
  | .pinf, .nan => .nan
  | .ninf, .nan => .nan
  | .num a, .num b => .num (a * b)
  | .num a, .pinf => if a = 0 then .nan else if 0 < a then .pinf else .ninf
  | .num a, .ninf => if a = 0 then .nan else if 0 < a then .ninf else .pinf
  | .pinf, .num b => if b = 0 then .nan else if 0 < b then .pinf else .ninf
  | .ninf, .num b => if b = 0 then .nan else if 0 < b then .ninf else .pinf
  | .pinf, .pinf => .pinf
  | .pinf, .ninf => .ninf
  | .ninf, .pinf => .ninf
  | .ninf, .ninf => .pinf

/-- IEEE division on embedded floats.  A finite nonzero value divided by
zero is a signed infinity, `0/0` is NaN; this is exactly what a pandas
float Series division produces. -/
def pdiv : PVal → PVal → PVal
  | .nan, _ => .nan
  | .num _, .nan => .nan
  | .pinf, .nan => .nan
  | .ninf, .nan => .nan
  | .num a, .num b =>
      if b = 0 then (if a = 0 then .nan else if 0 < a then .pinf else .ninf)
      else .num (a / b)
  | .num _, .pinf => .num 0
  | .num _, .ninf => .num 0
  | .pinf, .num b => if b < 0 then .ninf else .pinf
  | .ninf, .num b => if b < 0 then .pinf else .ninf
  | .pinf, .pinf => .nan
  | .pinf, .ninf => .nan
  | .ninf, .pinf => .nan
  | .ninf, .ninf => .nan

/-- IEEE strict greater-than comparison (`x > y` in Python): any
comparison involving NaN is `false`. -/
def pgtB : PVal → PVal → Bool
  | .nan, _ => false
  | .num _, .nan => false
  | .pinf, .nan => false
  | .ninf, .nan => false
  | .num a, .num b => decide (b < a)
  | .num _, .pinf => false
  | .num _, .ninf => true
  | .pinf, .num _ => true
  | .pinf, .pinf => false
  | .pinf, .ninf => true
  | .ninf, .num _ => false
  | .ninf, .pinf => false
  | .ninf, .ninf => false

/-- `x < y` in Python, i.e. `y > x`. -/
def pltB (x y : PVal) : Bool := pgtB y x

/-- `x ≤ y` as used by an ascending stable sort: not `x > y`.  On finite
values this is the rational order. -/
def pleB (x y : PVal) : Bool := !(pgtB x y)

/-- The rational carried by a finite value (junk `0` on non-finite ones);
used only to state theorems whose hypotheses force finiteness. -/
def toRat : PVal → ℚ
  | .num q => q
  | _ => 0

/-- Elementwise division of two date-aligned series, as in
`df_close[a] / df_close[b]` (src/main.py lines 153 and 180). -/
def seriesDiv (a b : List PVal) : List PVal := List.zipWith pdiv a b

/-- Elementwise scaling of a series by an exact constant (the hypothetical
input replacement `S ↦ c·S` of the scale-invariance property). -/
def scaleSeries (c : ℚ) (xs : List PVal) : List PVal := xs.map (pmul (PVal.num c))

/-- Sum of a list of embedded floats. -/
def psum (l : List PVal) : PVal := l.foldl padd (PVal.num 0)

/-- The trailing window of length `w` ending at position `t` (inclusive). -/
def windowAt (w : ℕ) (xs : List PVal) (t : ℕ) : List PVal :=
  (xs.take (t + 1)).drop (t + 1 - w)

/-- pandas `Series.rolling(window=w).mean()` with the default
`min_periods = w`: position `t` holds the mean of the trailing `w`
observations when `t ≥ w-1`, and NaN before that; a NaN inside the
window makes the output NaN (fewer than `w` observations). -/
def rollingMean (w : ℕ) (xs : List PVal) : List PVal :=
  (List.range xs.length).map fun t =>
    if t + 1 < w then PVal.nan
    else pdiv (psum (windowAt w xs t)) (PVal.num w)

/-- State threaded by the pandas exponentially-weighted mean loop:
the running weighted average, the weight of the old average, and the
number of (non-NaN) observations seen so far. -/
structure EwmState where
  avg : PVal
  oldWt : ℚ
  nobs : ℕ

/-- One step of the pandas `ewm(...).mean()` aggregation loop
(`adjust=False`, `ignore_na=False`): a NaN current value leaves the
average unchanged but still decays the old weight; an observation after
the first updates `avg ← (oldWt·avg + α·cur) / (oldWt + α)` and resets
the old weight to 1. -/
def ewmStep (al : ℚ) (st : EwmState) (cur : PVal) : EwmState :=
  let nobs2 := st.nobs + (if cur = PVal.nan then 0 else 1)
  if st.avg = PVal.nan then
    if cur = PVal.nan then { st with nobs := nobs2 }
    else { avg := cur, oldWt := st.oldWt, nobs := nobs2 }
  else
    let ow := st.oldWt * (1 - al)
    if cur = PVal.nan then { avg := st.avg, oldWt := ow, nobs := nobs2 }
    else
      { avg :=
          if st.avg = cur then st.avg
          else pdiv (padd (pmul (PVal.num ow) st.avg) (pmul (PVal.num al) cur))
                 (PVal.num (ow + al))
        oldWt := 1
        nobs := nobs2 }

/-- The tail of the pandas ewm loop: each position outputs the running
average once at least one observation has been seen, NaN before. -/
def ewmLoop (al : ℚ) (st : EwmState) : List PVal → List PVal
  | [] => []
  | cur :: rest =>
    let st2 := ewmStep al st cur
    (if 1 ≤ st2.nobs then st2.avg else PVal.nan) :: ewmLoop al st2 rest

/-- pandas `Series.ewm(span=w, adjust=False).mean()` (defaults
`ignore_na=False`, `min_periods=0`), with `α = 2/(w+1)`: the first value
seeds the average directly; NaN inputs are skipped (the last average is
carried, with its weight decayed), not propagated. -/
def ewmAdjustFalse (w : ℕ) (xs : List PVal) : List PVal :=
  match xs with
  | [] => []
  | x :: rest =>
    let al : ℚ := 2 / (w + 1)
    let nobs0 := if x = PVal.nan then 0 else 1
    (if 1 ≤ nobs0 then x else PVal.nan) :: ewmLoop al { avg := x, oldWt := 1, nobs := nobs0 } rest

/-- Modelled from the spec: the EMA recurrence exactly as §4.2 words it
(`EMA[0] = x[0]`, `EMA[t] = α·x[t] + (1-α)·EMA[t-1]`), on rationals, for
comparison with the pandas computation. -/
def emaGo (al : ℚ) (prev : ℚ) : List ℚ → List ℚ
  | [] => []
  | x :: rest => (al * x + (1 - al) * prev) :: emaGo al (al * x + (1 - al) * prev) rest

/-- Modelled from the spec: seed with the first observation, then run the
§4.2 recurrence. -/
def emaSpecQ (al : ℚ) : List ℚ → List ℚ
  | [] => []
  | x :: rest => x :: emaGo al x rest

/-! ## RRG coordinate engine (`calculate_rrg_components`, lines 139-172)

`rs_raw = df_close[sec] / df_close[benchmark]`,
`rs_ma = rs_raw.rolling(60).mean()`, `r_ratio = 100 * (rs_raw / rs_ma)`,
`mom_ma = r_ratio.rolling(10).mean()`, `r_mom = 100 * (r_ratio / mom_ma)`,
with the source constants `window_rs = 60`, `window_mom = 10`. -/

def rsRaw (S B : List PVal) : List PVal := seriesDiv S B

def rsRatioSeries (S B : List PVal) : List PVal :=
  (seriesDiv (rsRaw S B) (rollingMean 60 (rsRaw S B))).map (pmul (PVal.num 100))

def rsMomSeries (S B : List PVal) : List PVal :=
  (seriesDiv (rsRatioSeries S B) (rollingMean 10 (rsRatioSeries S B))).map
    (pmul (PVal.num 100))

/-- `series.tail(5).values`: the last (up to) five entries. -/
def tailN (n : ℕ) (l : List PVal) : List PVal := l.drop (l.length - n)

/-- Per-sector record built by `calculate_rrg_components`:
trailing five coordinates and the current (last-row) pair. -/
structure RRGEntry where
  chart_label : String
  display_name : String
  x : List PVal
  y : List PVal
  current_x : PVal
  current_y : PVal
deriving DecidableEq

/-- `config_val.split(' ')[0] if ' ' in config_val else ''`. -/
def emojiOf (cfg : String) : String :=
  if cfg.contains ' ' then (cfg.splitOn " ").headD "" else ""

/-- One sector's record (lines 159-171).  `current_x`/`current_y` use
`iloc[-1]`; the run aborts on an empty price table before reaching this
(`if df_all.empty: return`), so the default for an empty series is never
exercised. -/
def rrgEntryOf (sec cfg : String) (s b : List PVal) : RRGEntry :=
  { chart_label := emojiOf cfg ++ " " ++ sec
    display_name := sec ++ " " ++ cfg
    x := tailN 5 (rsRatioSeries s b)
    y := tailN 5 (rsMomSeries s b)
    current_x := (rsRatioSeries s b).getLastD PVal.nan
    current_y := (rsMomSeries s b).getLastD PVal.nan }

/-- The consolidated price table `df_close`: ticker column → date-indexed
series (all columns share the one date index). -/
def lookupCol (tbl : List (String × List PVal)) (k : String) : Option (List PVal) :=
  (tbl.find? (fun p => p.1 == k)).map (fun p => p.2)

/-- `calculate_rrg_components`: a sector is skipped when its column or the
benchmark column is absent (line 150). -/
def calculate_rrg_components (benchmark : String) (sectors : List (String × String))
    (tbl : List (String × List PVal)) : List (String × RRGEntry) :=
  sectors.filterMap fun sc =>
    match lookupCol tbl sc.1, lookupCol tbl benchmark with
    | some s, some b => some (sc.1, rrgEntryOf sc.1 sc.2 s b)
    | _, _ => none

def rrgLookup (name : String) (l : List (String × RRGEntry)) : Option (String × RRGEntry) :=
  l.find? (fun p => p.1 == name)

/-! ## Quadrant classifier (`get_quadrant_color`, lines 191-195) -/

def COLORS_leading : String := "#2ca02c"
def COLORS_weakening : String := "#e6aa00"
def COLORS_lagging : String := "#d62728"
def COLORS_improving : String := "#1f77b4"

/-- Lines 191-195: three guarded comparisons against 100, with Weakening
as the fall-through.  Comparisons are float comparisons, so NaN makes
every guard false. -/
def get_quadrant_color (x y : PVal) : String :=
  if pgtB x (PVal.num 100) && pgtB y (PVal.num 100) then COLORS_leading
  else if pltB x (PVal.num 100) && pgtB y (PVal.num 100) then COLORS_improving
  else if pltB x (PVal.num 100) && pltB y (PVal.num 100) then COLORS_lagging
  else COLORS_weakening

/-- Line 269 of `send_telegram`: the sectors reported as leading. -/
def leadingEntries (l : List (String × RRGEntry)) : List (String × RRGEntry) :=
  l.filter fun d => pgtB d.2.current_x (PVal.num 100) && pgtB d.2.current_y (PVal.num 100)

/-- Line 270 of `send_telegram`: the sectors reported as improving. -/
def improvingEntries (l : List (String × RRGEntry)) : List (String × RRGEntry) :=
  l.filter fun d => pltB d.2.current_x (PVal.num 100) && pgtB d.2.current_y (PVal.num 100)

def leadingNames (l : List (String × RRGEntry)) : List String :=
  (leadingEntries l).map fun d => d.2.display_name

def improvingNames (l : List (String × RRGEntry)) : List String :=
  (improvingEntries l).map fun d => d.2.display_name

/-! ## MA-status classifier (`get_ma_status_text`, lines 250-264) -/

/-- The last row of an indicator frame: the six moving averages used by
`get_ma_status_text` (any of them may be NaN when history is short). -/
structure MARow where
  sma20 : PVal
  ema20 : PVal
  sma60 : PVal
  ema60 : PVal
  sma120 : PVal
  ema120 : PVal
deriving DecidableEq

/-- The `mas` dict of line 251, in its insertion order. -/
def masList (r : MARow) : List (String × PVal) :=
  [("SMA20", r.sma20), ("EMA20", r.ema20), ("SMA60", r.sma60),
   ("EMA60", r.ema60), ("SMA120", r.sma120), ("EMA120", r.ema120)]

/-- `sum(1 for v in mas.values() if current_val > v)` (line 252). -/
def supportCount (v : PVal) (r : MARow) : ℕ :=
  (masList r).countP fun p => pgtB v p.2

/-- The four distinct strings `get_ma_status_text` can return, with the
data interpolated into them: `strongBullish` is the 超强多头 message,
`strongBearish` the 极度弱势 one, `ranging fl ce` the 震荡 message naming
a floor and a ceiling average, and `entangled sc` the 均线纠缠 fallback
carrying the raw support count (the spec's Indeterminate). -/
inductive MAStatus where
  | strongBullish
  | strongBearish
  | ranging (fl ce : String)
  | entangled (sc : ℕ)
deriving DecidableEq

/-- Insertion of one pair into an ascending run, placing it before the
first entry it does not exceed — together with `psort` this is the
unique stable ascending sort, which is what Python `sorted` computes on
the (totally ordered) NaN-free value lists the sorted branch is used on. -/
def orderedInsertMA (p : String × PVal) : List (String × PVal) → List (String × PVal)
  | [] => [p]
  | q :: l => if pleB p.2 q.2 then p :: q :: l else q :: orderedInsertMA p l

/-- `sorted(mas.items(), key=lambda item: item[1])` (line 256). -/
def psort : List (String × PVal) → List (String × PVal)
  | [] => []
  | p :: l => orderedInsertMA p (psort l)

/-- The scan of lines 258-262: walk the sorted pairs; a value below the
current one updates the floor, the first value not below it becomes the
ceiling and stops the scan. -/
def scanFC (v : PVal) (fl : Option String) :
    List (String × PVal) → Option String × Option String
  | [] => (fl, none)
  | p :: rest => if pgtB v p.2 then scanFC v (some p.1) rest else (fl, some p.1)

/-- `get_ma_status_text(current_val, row)` (lines 250-264).  The truthiness
test `if floor_ma and ceil_ma` is `Option.isSome` here: the six names are
fixed non-empty strings. -/
def get_ma_status_text (v : PVal) (r : MARow) : MAStatus :=
  let sc := supportCount v r
  if sc = 6 then MAStatus.strongBullish
  else if sc = 0 then MAStatus.strongBearish
  else
    match scanFC v none (psort (masList r)) with
    | (some fl, some ce) => MAStatus.ranging fl ce
    | _ => MAStatus.entangled sc

/-! ## Synthetic index builder (`get_data_and_synthesize`, lines 113-131)

`composite_series = pd.Series(0, index=df_close.index)`, then for each
component `composite_series += df_close[ticker] * weight`, aborting the
whole synthesis when a component column is missing; the synthetic column
is written only when every component was present. -/

def synthAccum (tbl : List (String × List PVal)) :
    List (String × ℚ) → List PVal → Option (List PVal)
  | [], acc => some acc
  | c :: rest, acc =>
    match lookupCol tbl c.1 with
    | some col => synthAccum tbl rest (List.zipWith padd acc (col.map fun v => pmul v (PVal.num c.2)))
    | none => none

def synthesize (comps : List (String × ℚ)) (tbl : List (String × List PVal))
    (idxLen : ℕ) : Option (List PVal) :=
  synthAccum tbl comps (List.replicate idxLen (PVal.num 0))

/-- `df_close[synth_name] = composite_series` when the synthesis
succeeded; the table is left unchanged when it failed (the failure is
reported and swallowed — no exception escapes). -/
def addSynthetic (name : String) (comps : List (String × ℚ))
    (tbl : List (String × List PVal)) (idxLen : ℕ) : List (String × List PVal) :=
  match synthesize comps tbl idxLen with
  | some s => tbl ++ [(name, s)]
  | none => tbl

/-! ## Basic facts about the embedded float operations -/

@[simp] lemma pgtB_nan_left (x : PVal) : pgtB PVal.nan x = false := rfl

@[simp] lemma pgtB_nan_right (x : PVal) : pgtB x PVal.nan = false := by cases x <;> rfl

@[simp] lemma pdiv_nan_left (x : PVal) : pdiv PVal.nan x = PVal.nan := rfl

@[simp] lemma pdiv_nan_right (x : PVal) : pdiv x PVal.nan = PVal.nan := by cases x <;> rfl

@[simp] lemma pmul_nan_left (x : PVal) : pmul PVal.nan x = PVal.nan := rfl

@[simp] lemma pmul_nan_right (x : PVal) : pmul x PVal.nan = PVal.nan := by cases x <;> rfl

@[simp] lemma padd_nan_left (x : PVal) : padd PVal.nan x = PVal.nan := rfl

@[simp] lemma padd_nan_right (x : PVal) : padd x PVal.nan = PVal.nan := by cases x <;> rfl

lemma padd_num_num (a b : ℚ) : padd (PVal.num a) (PVal.num b) = PVal.num (a + b) := rfl

lemma pmul_num_num (a b : ℚ) : pmul (PVal.num a) (PVal.num b) = PVal.num (a * b) := rfl

lemma pgtB_num_num (a b : ℚ) : pgtB (PVal.num a) (PVal.num b) = decide (b < a) := rfl

lemma pdiv_num_num (a b : ℚ) (hb : b ≠ 0) :
    pdiv (PVal.num a) (PVal.num b) = PVal.num (a / b) := by
  simp [pdiv, hb]

lemma pleB_num_num (a b : ℚ) : pleB (PVal.num a) (PVal.num b) = decide (a ≤ b) := by
  rcases le_or_lt a b with h | h
  · simp [pleB, pgtB_num_num, h, not_lt.mpr h]
  · simp [pleB, pgtB_num_num, h, not_le.mpr h]

/-! ## List access helpers -/

lemma zipWith_getElem?_some (f : PVal → PVal → PVal) :
    ∀ (a b : List PVal) (i : ℕ) (x y : PVal), a[i]? = some x → b[i]? = some y →
      (List.zipWith f a b)[i]? = some (f x y) := by
  intro a
  induction a with
  | nil => intro b i x y hx; simp at hx
  | cons a0 a2 ih =>
    intro b i x y hx hy
    cases b with
    | nil => simp at hy
    | cons b0 b2 =>
      cases i with
      | zero =>
        simp only [List.getElem?_cons_zero, Option.some.injEq] at hx hy
        simp [hx, hy]
      | succ j =>
        simp only [List.getElem?_cons_succ] at hx hy
        simpa using ih b2 j x y hx hy

lemma rollingMean_length (w : ℕ) (xs : List PVal) :
    (rollingMean w xs).length = xs.length := by
  simp [rollingMean]

lemma rollingMean_getElem? (w : ℕ) (xs : List PVal) (t : ℕ) (h : t < xs.length) :
    (rollingMean w xs)[t]? = some (if t + 1 < w then PVal.nan
      else pdiv (psum (windowAt w xs t)) (PVal.num w)) := by
  rw [rollingMean, List.getElem?_map, List.getElem?_range h]
  rfl

lemma windowAt_length (w : ℕ) (xs : List PVal) (t : ℕ) (h : t < xs.length)
    (hw : w ≤ t + 1) : (windowAt w xs t).length = w := by
  simp only [windowAt, List.length_drop, List.length_take]
  omega

lemma windowAt_mem {w : ℕ} {xs : List PVal} {t : ℕ} {v : PVal}
    (h : v ∈ windowAt w xs t) : v ∈ xs :=
  List.take_subset _ _ (List.drop_subset _ _ h)

lemma windowAt_getElem? (w : ℕ) (xs : List PVal) (t i : ℕ) (hi : i < w)
    (hw : w ≤ t + 1) : (windowAt w xs t)[i]? = xs[t + 1 - w + i]? := by
  rw [windowAt, List.getElem?_drop, List.getElem?_take]
  rw [if_pos (by omega)]

lemma windowAt_map (f : PVal → PVal) (w : ℕ) (xs : List PVal) (t : ℕ) :
    windowAt w (xs.map f) t = (windowAt w xs t).map f := by
  simp [windowAt, List.map_take, List.map_drop]

/-! ## Sums of embedded floats -/

lemma foldl_padd_nan : ∀ l : List PVal, l.foldl padd PVal.nan = PVal.nan := by
  intro l
  induction l with
  | nil => rfl
  | cons x l ih => simpa using ih

lemma foldl_padd_nan_mem : ∀ (l : List PVal), PVal.nan ∈ l →
    ∀ acc : PVal, l.foldl padd acc = PVal.nan := by
  intro l
  induction l with
  | nil => intro h; simp at h
  | cons x l ih =>
    intro h acc
    rcases List.mem_cons.mp h with rfl | h2
    · simpa using foldl_padd_nan l
    · exact ih h2 _

lemma psum_nan_of_mem {l : List PVal} (h : PVal.nan ∈ l) : psum l = PVal.nan :=
  foldl_padd_nan_mem l h _

lemma foldl_padd_num : ∀ (l : List PVal), (∀ v ∈ l, ∃ q : ℚ, v = PVal.num q) →
    ∀ a : ℚ, l.foldl padd (PVal.num a) = PVal.num (a + (l.map toRat).sum) := by
  intro l
  induction l with
  | nil => intro _ a; simp
  | cons x l ih =>
    intro h a
    obtain ⟨q, rfl⟩ := h x (List.mem_cons_self x l)
    have := ih (fun v hv => h v (List.mem_cons_of_mem _ hv)) (a + q)
    simp only [List.foldl_cons, padd_num_num, this, List.map_cons, List.sum_cons, toRat]
    ring_nf

lemma psum_num {l : List PVal} (h : ∀ v ∈ l, ∃ q : ℚ, v = PVal.num q) :
    psum l = PVal.num ((l.map toRat).sum) := by
  simpa [psum] using foldl_padd_num l h 0

/-- A series that is everywhere a (strictly) positive finite value, the
shape of a real price history. -/
def PosSeries (xs : List PVal) : Prop :=
  ∀ v ∈ xs, ∃ q : ℚ, 0 < q ∧ v = PVal.num q

lemma psum_pos {l : List PVal} (h : ∀ v ∈ l, ∃ q : ℚ, 0 < q ∧ v = PVal.num q)
    (hne : l ≠ []) : ∃ s : ℚ, 0 < s ∧ psum l = PVal.num s := by
  refine ⟨(l.map toRat).sum, ?_, ?_⟩
  · apply List.sum_pos
    · intro a ha
      obtain ⟨v, hv, rfl⟩ := List.mem_map.mp ha
      obtain ⟨q, hq, rfl⟩ := h v hv
      simpa [toRat] using hq
    · simpa using hne
  · exact psum_num fun v hv => (h v hv).imp fun q hq => hq.2

/-! ## Rolling-mean characterization -/

lemma rollingMean_nan_lt {w : ℕ} {xs : List PVal} {t : ℕ} (h : t < xs.length)
    (hw : t + 1 < w) : (rollingMean w xs)[t]? = some PVal.nan := by
  rw [rollingMean_getElem? w xs t h, if_pos hw]

lemma rollingMean_nan_of_mem {w : ℕ} {xs : List PVal} {t : ℕ} (h : t < xs.length)
    (hw : w ≤ t + 1) (hnan : PVal.nan ∈ windowAt w xs t) :
    (rollingMean w xs)[t]? = some PVal.nan := by
  rw [rollingMean_getElem? w xs t h, if_neg (by omega), psum_nan_of_mem hnan]
  rfl

lemma rollingMean_pos {w : ℕ} {xs : List PVal} {t : ℕ} (hw0 : 0 < w)
    (hx : ∀ v ∈ windowAt w xs t, ∃ q : ℚ, 0 < q ∧ v = PVal.num q)
    (h : t < xs.length) (hw : w ≤ t + 1) :
    ∃ m : ℚ, 0 < m ∧ (rollingMean w xs)[t]? = some (PVal.num m) := by
  have hne : windowAt w xs t ≠ [] := by
    have := windowAt_length w xs t h hw
    intro hcon
    rw [hcon] at this
    simp at this
    omega
  obtain ⟨s, hs, hsum⟩ := psum_pos hx hne
  have hwq : (w : ℚ) ≠ 0 := Nat.cast_ne_zero.mpr (by omega)
  refine ⟨s / w, div_pos hs (by exact_mod_cast (show 0 < w by omega)), ?_⟩
  rw [rollingMean_getElem? w xs t h, if_neg (by omega), hsum, pdiv_num_num s w hwq]

/-! ## RRG pipeline characterization -/

lemma zipWith_pdiv_pos :
    ∀ (a b : List PVal), PosSeries a → PosSeries b → PosSeries (List.zipWith pdiv a b) := by
  intro a
  induction a with
  | nil => intro b _ _ v hv; simp at hv
  | cons a0 a2 ih =>
    intro b ha hb v hv
    cases b with
    | nil => simp at hv
    | cons b0 b2 =>
      rcases List.mem_cons.mp hv with rfl | h2
      · obtain ⟨qa, hqa, rfl⟩ := ha a0 (List.mem_cons_self _ _)
        obtain ⟨qb, hqb, rfl⟩ := hb b0 (List.mem_cons_self _ _)
        exact ⟨qa / qb, div_pos hqa hqb, by rw [pdiv_num_num _ _ (ne_of_gt hqb)]⟩
      · exact ih b2 (fun v hv => ha v (List.mem_cons_of_mem _ hv))
          (fun v hv => hb v (List.mem_cons_of_mem _ hv)) v h2

lemma rsRaw_length {S B : List PVal} (hlen : S.length = B.length) :
    (rsRaw S B).length = S.length := by
  simp [rsRaw, seriesDiv, List.length_zipWith, hlen]

lemma rsRatio_length {S B : List PVal} (hlen : S.length = B.length) :
    (rsRatioSeries S B).length = S.length := by
  simp [rsRatioSeries, seriesDiv, List.length_zipWith, rollingMean_length,
    rsRaw_length hlen]

lemma rsRatio_nan {S B : List PVal} (hlen : S.length = B.length) {t : ℕ}
    (ht : t < S.length) (h59 : t < 59) : (rsRatioSeries S B)[t]? = some PVal.nan := by
  have htr : t < (rsRaw S B).length := by rw [rsRaw_length hlen]; exact ht
  have hraw : (rsRaw S B)[t]? = some (rsRaw S B)[t] := List.getElem?_eq_getElem htr
  have hma : (rollingMean 60 (rsRaw S B))[t]? = some PVal.nan :=
    rollingMean_nan_lt htr (by omega)
  rw [rsRatioSeries, seriesDiv, List.getElem?_map,
    zipWith_getElem?_some pdiv _ _ t _ _ hraw hma]
  simp

lemma rsRatio_pos {S B : List PVal} (hlen : S.length = B.length)
    (hS : PosSeries S) (hB : PosSeries B) {t : ℕ} (ht : t < S.length)
    (h59 : 59 ≤ t) : ∃ q : ℚ, 0 < q ∧ (rsRatioSeries S B)[t]? = some (PVal.num q) := by
  have hrawpos : PosSeries (rsRaw S B) := zipWith_pdiv_pos S B hS hB
  have htr : t < (rsRaw S B).length := by rw [rsRaw_length hlen]; exact ht
  have hraw : (rsRaw S B)[t]? = some (rsRaw S B)[t] := List.getElem?_eq_getElem htr
  obtain ⟨a, ha, haeq⟩ := hrawpos (rsRaw S B)[t] (List.getElem_mem htr)
  obtain ⟨m, hm, hmeq⟩ := @rollingMean_pos 60 (rsRaw S B) t
    (by omega) (fun v hv => hrawpos v (windowAt_mem hv)) htr (by omega)
  refine ⟨100 * (a / m), by positivity, ?_⟩
  rw [rsRatioSeries, seriesDiv, List.getElem?_map,
    zipWith_getElem?_some pdiv _ _ t _ _ hraw hmeq, haeq,
    pdiv_num_num a m (ne_of_gt hm)]
  simp [pmul_num_num]

lemma momMA_nan {S B : List PVal} (hlen : S.length = B.length) {t : ℕ}
    (ht : t < S.length) (h68 : t < 68) :
    (rollingMean 10 (rsRatioSeries S B))[t]? = some PVal.nan := by
  have htr : t < (rsRatioSeries S B).length := by rw [rsRatio_length hlen]; exact ht
  by_cases h10 : t + 1 < 10
  · exact rollingMean_nan_lt htr h10
  · have h9 : 9 ≤ t := by omega
    have hidx : t + 1 - 10 + 0 = t - 9 := by omega
    have hnan9 : (rsRatioSeries S B)[t - 9]? = some PVal.nan :=
      rsRatio_nan hlen (by omega) (by omega)
    have hwin : (windowAt 10 (rsRatioSeries S B) t)[0]? = some PVal.nan := by
      rw [windowAt_getElem? 10 _ t 0 (by omega) (by omega), hidx, hnan9]
    exact rollingMean_nan_of_mem htr (by omega) (List.getElem?_mem hwin)

lemma momMA_pos {S B : List PVal} (hlen : S.length = B.length)
    (hS : PosSeries S) (hB : PosSeries B) {t : ℕ} (ht : t < S.length)
    (h68 : 68 ≤ t) :
    ∃ m : ℚ, 0 < m ∧ (rollingMean 10 (rsRatioSeries S B))[t]? = some (PVal.num m) := by
  have htr : t < (rsRatioSeries S B).length := by rw [rsRatio_length hlen]; exact ht
  apply rollingMean_pos (by omega) ?_ htr (by omega)
  intro v hv
  obtain ⟨i, hieq⟩ := List.mem_iff_getElem?.mp hv
  have hilt : i < 10 := by
    have hwl := windowAt_length 10 (rsRatioSeries S B) t htr (by omega)
    by_contra hcon
    rw [List.getElem?_eq_none (by omega)] at hieq
    cases hieq
  rw [windowAt_getElem? 10 _ t i hilt (by omega)] at hieq
  obtain ⟨q, hq, hqe⟩ := rsRatio_pos hlen hS hB
    (show t + 1 - 10 + i < S.length by omega) (by omega)
  rw [hqe] at hieq
  exact ⟨q, hq, by injection hieq with h2; exact h2.symm⟩

/-! ## The pandas ewm loop on fully defined input is the spec recurrence -/

lemma ewmStep_num (al a q : ℚ) (n : ℕ) :
    ewmStep al { avg := PVal.num a, oldWt := 1, nobs := n } (PVal.num q) =
      { avg := PVal.num (al * q + (1 - al) * a), oldWt := 1, nobs := n + 1 } := by
  by_cases hq : a = q
  · subst hq
    simp only [ewmStep, reduceCtorEq, if_false, if_true, PVal.num.injEq, if_pos rfl]
    have : al * a + (1 - al) * a = a := by ring
    simp [this]
  · have hne : PVal.num a ≠ PVal.num q := by simpa using hq
    simp only [ewmStep, reduceCtorEq, if_false, if_neg hne]
    have h1 : (1 : ℚ) * (1 - al) + al = 1 := by ring
    rw [pmul_num_num, pmul_num_num, padd_num_num, pdiv_num_num _ _ (by rw [h1]; norm_num)]
    have : (1 * (1 - al) * a + al * q) / (1 * (1 - al) + al) = al * q + (1 - al) * a := by
      rw [h1, div_one]; ring
    simp only [this]

lemma ewmLoop_num (al : ℚ) :
    ∀ (l : List PVal), (∀ v ∈ l, ∃ q : ℚ, v = PVal.num q) →
      ∀ (a : ℚ) (n : ℕ), 1 ≤ n →
        ewmLoop al { avg := PVal.num a, oldWt := 1, nobs := n } l =
          (emaGo al a (l.map toRat)).map PVal.num := by
  intro l
  induction l with
  | nil => intros; rfl
  | cons x l ih =>
    intro hdef a n hn
    obtain ⟨q, rfl⟩ := hdef x (List.mem_cons_self x l)
    rw [ewmLoop, ewmStep_num al a q n]
    have hn2 : 1 ≤ n + 1 := by omega
    simp only [if_pos hn2, List.map_cons, toRat, emaGo]
    rw [ih (fun v hv => hdef v (List.mem_cons_of_mem _ hv)) _ (n + 1) hn2]

/-! ## Quadrant classifier characterization on finite coordinates -/

lemma gqc_num (x y : ℚ) :
    get_quadrant_color (PVal.num x) (PVal.num y) =
      if 100 < x ∧ 100 < y then COLORS_leading
      else if x < 100 ∧ 100 < y then COLORS_improving
      else if x < 100 ∧ y < 100 then COLORS_lagging
      else COLORS_weakening := by
  simp only [get_quadrant_color, pltB, pgtB_num_num, Bool.and_eq_true, decide_eq_true_eq]

lemma colors_distinct :
    COLORS_leading ≠ COLORS_improving ∧ COLORS_leading ≠ COLORS_lagging ∧
    COLORS_leading ≠ COLORS_weakening ∧ COLORS_improving ≠ COLORS_lagging ∧
    COLORS_improving ≠ COLORS_weakening ∧ COLORS_lagging ≠ COLORS_weakening := by
  refine ⟨?_, ?_, ?_, ?_, ?_, ?_⟩ <;> decide

/-! ## The sorted floor/ceiling scan of `get_ma_status_text` -/

/-- Ascending order of the carried keys, the invariant maintained by the
stable insertion for lists of finite values. -/
def SortedKeys (l : List (String × PVal)) : Prop :=
  l.Pairwise fun p q => toRat p.2 ≤ toRat q.2

lemma mem_orderedInsertMA (p x : String × PVal) :
    ∀ l, x ∈ orderedInsertMA p l ↔ x ∈ p :: l := by
  intro l
  induction l with
  | nil => simp [orderedInsertMA]
  | cons q l ih =>
    by_cases h : pleB p.2 q.2 = true
    · simp [orderedInsertMA, h]
    · simp only [orderedInsertMA, if_neg h, List.mem_cons, ih]
      tauto

lemma length_orderedInsertMA (p : String × PVal) :
    ∀ l, (orderedInsertMA p l).length = l.length + 1 := by
  intro l
  induction l with
  | nil => rfl
  | cons q l ih =>
    by_cases h : pleB p.2 q.2 = true
    · simp [orderedInsertMA, h]
    · simp [orderedInsertMA, h, ih]

lemma countP_orderedInsertMA (f : String × PVal → Bool) (p : String × PVal) :
    ∀ l, (orderedInsertMA p l).countP f = (p :: l).countP f := by
  intro l
  induction l with
  | nil => rfl
  | cons q l ih =>
    by_cases h : pleB p.2 q.2 = true
    · simp [orderedInsertMA, h]
    · simp only [orderedInsertMA, if_neg h, List.countP_cons, ih]
      omega

lemma sortedKeys_orderedInsertMA (p : String × PVal) (hp : ∃ q : ℚ, p.2 = PVal.num q) :
    ∀ l, (∀ x ∈ l, ∃ q : ℚ, x.2 = PVal.num q) → SortedKeys l →
      SortedKeys (orderedInsertMA p l) := by
  intro l
  induction l with
  | nil => intro _ _; simp [orderedInsertMA, SortedKeys]
  | cons r l ih =>
    intro hdef hs
    obtain ⟨a, hpa⟩ := hp
    obtain ⟨b, hrb⟩ := hdef r (List.mem_cons_self r l)
    have hsl : SortedKeys l := (List.pairwise_cons.mp hs).2
    have hrl : ∀ x ∈ l, toRat r.2 ≤ toRat x.2 := (List.pairwise_cons.mp hs).1
    have hta : toRat p.2 = a := by rw [hpa]; rfl
    have htb : toRat r.2 = b := by rw [hrb]; rfl
    by_cases hg : pleB p.2 r.2 = true
    · have hab : a ≤ b := by
        rw [hpa, hrb, pleB_num_num] at hg
        exact of_decide_eq_true hg
      rw [orderedInsertMA, if_pos hg]
      refine List.pairwise_cons.mpr ⟨?_, hs⟩
      intro x hx
      rcases List.mem_cons.mp hx with rfl | hx2
      · rw [hta, htb]; exact hab
      · rw [hta]
        calc a ≤ b := hab
          _ = toRat r.2 := htb.symm
          _ ≤ toRat x.2 := hrl x hx2
    · have hba : b < a := by
        rw [hpa, hrb, pleB_num_num] at hg
        exact lt_of_not_le fun hc => hg (decide_eq_true hc)
      rw [orderedInsertMA, if_neg hg]
      refine List.pairwise_cons.mpr
        ⟨?_, ih (fun x hx => hdef x (List.mem_cons_of_mem _ hx)) hsl⟩
      intro x hx
      rcases List.mem_cons.mp ((mem_orderedInsertMA p x l).mp hx) with rfl | hx2
      · rw [hta, htb]; exact le_of_lt hba
      · exact hrl x hx2

lemma mem_psort : ∀ (l : List (String × PVal)) (x : String × PVal), x ∈ psort l ↔ x ∈ l := by
  intro l
  induction l with
  | nil => intro x; simp [psort]
  | cons p l ih =>
    intro x
    rw [psort, mem_orderedInsertMA, List.mem_cons, List.mem_cons, ih]

lemma length_psort : ∀ l : List (String × PVal), (psort l).length = l.length := by
  intro l
  induction l with
  | nil => rfl
  | cons p l ih => rw [psort, length_orderedInsertMA, ih, List.length_cons]

lemma countP_psort (f : String × PVal → Bool) :
    ∀ l : List (String × PVal), (psort l).countP f = l.countP f := by
  intro l
  induction l with
  | nil => rfl
  | cons p l ih =>
    rw [psort, countP_orderedInsertMA, List.countP_cons, List.countP_cons, ih]

lemma sortedKeys_psort :
    ∀ l, (∀ x ∈ l, ∃ q : ℚ, x.2 = PVal.num q) → SortedKeys (psort l) := by
  intro l
  induction l with
  | nil => intro _; simp [psort, SortedKeys]
  | cons p l ih =>
    intro hdef
    have hmem : ∀ x ∈ psort l, ∃ q : ℚ, x.2 = PVal.num q := by
      intro x hx
      exact hdef x (List.mem_cons_of_mem _ ((mem_psort l x).mp hx))
    exact sortedKeys_orderedInsertMA p (hdef p (List.mem_cons_self p l)) (psort l)
      hmem (ih fun x hx => hdef x (List.mem_cons_of_mem _ hx))

lemma scanFC_sorted (vq : ℚ) :
    ∀ (l : List (String × PVal)), (∀ x ∈ l, ∃ q : ℚ, x.2 = PVal.num q) → SortedKeys l →
      ∀ k : ℕ, k = l.countP (fun p => pgtB (PVal.num vq) p.2) → 1 ≤ k → k < l.length →
        ∀ fl : Option String,
          scanFC (PVal.num vq) fl l =
            (some ((l.getD (k - 1) ("", PVal.nan)).1),
             some ((l.getD k ("", PVal.nan)).1)) := by
  intro l
  induction l with
  | nil => intro _ _ k _ _ h2 _; simp at h2
  | cons p rest ih =>
    intro hdef hs k hk h1 hlen fl
    obtain ⟨b, hpb⟩ := hdef p (List.mem_cons_self p rest)
    by_cases hb : b < vq
    · have hcond : pgtB (PVal.num vq) p.2 = true := by
        rw [hpb, pgtB_num_num]; exact decide_eq_true hb
      have hk2 : k = rest.countP (fun p => pgtB (PVal.num vq) p.2) + 1 := by
        rw [hk, List.countP_cons, hcond]
        simp
      rw [scanFC, if_pos hcond]
      by_cases hzero : rest.countP (fun p => pgtB (PVal.num vq) p.2) = 0
      · have hkone : k = 1 := by omega
        cases rest with
        | nil => simp at hlen; omega
        | cons r rest2 =>
          have hrcond : ¬(pgtB (PVal.num vq) r.2 = true) := by
            intro hc
            have := List.countP_eq_zero.mp hzero r (List.mem_cons_self r rest2)
            exact this hc
          rw [scanFC, if_neg hrcond, hkone]
          rfl
      · have hsrest : SortedKeys rest := (List.pairwise_cons.mp hs).2
        have hdrest : ∀ x ∈ rest, ∃ q : ℚ, x.2 = PVal.num q :=
          fun x hx => hdef x (List.mem_cons_of_mem _ hx)
        have hk2lt : rest.countP (fun p => pgtB (PVal.num vq) p.2) < rest.length := by
          simp only [List.length_cons] at hlen; omega
        have hres := ih hdrest hsrest _ rfl (by omega) hk2lt (some p.1)
        rw [hres]
        obtain ⟨j, hj⟩ : ∃ j, rest.countP (fun p => pgtB (PVal.num vq) p.2) = j + 1 :=
          ⟨rest.countP (fun p => pgtB (PVal.num vq) p.2) - 1, by omega⟩
        have hkj : k = j + 2 := by omega
        rw [hj, hkj]
        have h21 : j + 2 - 1 = j + 1 := by omega
        rw [h21]
        simp only [Nat.add_sub_cancel, List.getD_cons_succ]
    · have hcond : pgtB (PVal.num vq) p.2 = false := by
        rw [hpb, pgtB_num_num]; exact decide_eq_false hb
      have hrl : ∀ x ∈ rest, toRat p.2 ≤ toRat x.2 := (List.pairwise_cons.mp hs).1
      have hzero : rest.countP (fun p => pgtB (PVal.num vq) p.2) = 0 := by
        apply List.countP_eq_zero.mpr
        intro x hx
        obtain ⟨c, hc⟩ := hdef x (List.mem_cons_of_mem _ hx)
        have hbc : b ≤ c := by
          have := hrl x hx
          rw [hpb, hc] at this
          exact this
        rw [hc, pgtB_num_num]
        simp only [decide_eq_true_eq]
        intro hcv
        exact hb (lt_of_le_of_lt hbc hcv)
      rw [hk, List.countP_cons, hcond, hzero] at h1
      simp at h1

/-! ## Scaling by a positive constant commutes with the pipeline -/

lemma pmul_num_padd (c : ℚ) (hc : 0 < c) (x y : PVal) :
    pmul (PVal.num c) (padd x y) = padd (pmul (PVal.num c) x) (pmul (PVal.num c) y) := by
  have hc0 : ¬(c = 0) := ne_of_gt hc
  cases x <;> cases y <;> simp [padd, pmul, hc, hc0, mul_add]

lemma pdiv_pmul_num_left (c : ℚ) (hc : 0 < c) (x y : PVal) :
    pdiv (pmul (PVal.num c) x) y = pmul (PVal.num c) (pdiv x y) := by
  have hc0 : c ≠ 0 := ne_of_gt hc
  cases x with
  | num a =>
    cases y with
    | num b =>
      by_cases hb : b = 0
      · subst hb
        by_cases ha : a = 0
        · subst ha; simp [pdiv, pmul, mul_zero]
        · rcases lt_or_gt_of_ne ha with haneg | hapos
          · have h1 : ¬(0 < a) := not_lt.mpr (le_of_lt haneg)
            have h2 : c * a ≠ 0 := mul_ne_zero hc0 ha
            have h3 : ¬(0 < c * a) := not_lt.mpr (le_of_lt (mul_neg_of_pos_of_neg hc haneg))
            simp [pdiv, pmul, ha, h1, h2, h3, hc0, hc]
          · have h2 : c * a ≠ 0 := mul_ne_zero hc0 (ne_of_gt hapos)
            have h3 : 0 < c * a := mul_pos hc hapos
            simp [pdiv, pmul, ha, hapos, h2, h3, hc0, hc]
      · simp [pdiv, pmul, hb, mul_div_assoc]
    | pinf => simp [pdiv, pmul, mul_zero]
    | ninf => simp [pdiv, pmul, mul_zero]
    | nan => simp [pdiv, pmul]
  | pinf =>
    cases y with
    | num b => by_cases hb : b < 0 <;> simp [pdiv, pmul, hb, hc0, hc]
    | pinf => simp [pdiv, pmul, hc0, hc]
    | ninf => simp [pdiv, pmul, hc0, hc]
    | nan => simp [pdiv, pmul, hc0, hc]
  | ninf =>
    cases y with
    | num b => by_cases hb : b < 0 <;> simp [pdiv, pmul, hb, hc0, hc]
    | pinf => simp [pdiv, pmul, hc0, hc]
    | ninf => simp [pdiv, pmul, hc0, hc]
    | nan => simp [pdiv, pmul, hc0, hc]
  | nan => simp [pdiv, pmul]

lemma pdiv_pmul_num_cancel (c : ℚ) (hc : 0 < c) (x y : PVal) :
    pdiv (pmul (PVal.num c) x) (pmul (PVal.num c) y) = pdiv x y := by
  have hc0 : c ≠ 0 := ne_of_gt hc
  cases x with
  | num a =>
    cases y with
    | num b =>
      by_cases hb : b = 0
      · subst hb
        by_cases ha : a = 0
        · subst ha; simp [pdiv, pmul, mul_zero]
        · rcases lt_or_gt_of_ne ha with haneg | hapos
          · have h1 : ¬(0 < a) := not_lt.mpr (le_of_lt haneg)
            have h2 : c * a ≠ 0 := mul_ne_zero hc0 ha
            have h3 : ¬(0 < c * a) := not_lt.mpr (le_of_lt (mul_neg_of_pos_of_neg hc haneg))
            simp [pdiv, pmul, ha, h1, h2, h3, mul_zero]
          · have h2 : c * a ≠ 0 := mul_ne_zero hc0 (ne_of_gt hapos)
            have h3 : 0 < c * a := mul_pos hc hapos
            simp [pdiv, pmul, ha, hapos, h2, h3, mul_zero]
      · have hcb : c * b ≠ 0 := mul_ne_zero hc0 hb
        simp [pdiv, pmul, hb, hcb, mul_div_mul_left _ _ hc0]
    | pinf => simp [pdiv, pmul, hc0, hc]
    | ninf => simp [pdiv, pmul, hc0, hc]
    | nan => simp [pdiv, pmul]
  | pinf =>
    cases y with
    | num b =>
      by_cases hb : b < 0
      · have : c * b < 0 := mul_neg_of_pos_of_neg hc hb
        simp [pdiv, pmul, hb, this, hc0, hc]
      · have : ¬(c * b < 0) := not_lt.mpr (mul_nonneg hc.le (not_lt.mp hb))
        simp [pdiv, pmul, hb, this, hc0, hc]
    | pinf => simp [pdiv, pmul, hc0, hc]
    | ninf => simp [pdiv, pmul, hc0, hc]
    | nan => simp [pdiv, pmul, hc0, hc]
  | ninf =>
    cases y with
    | num b =>
      by_cases hb : b < 0
      · have : c * b < 0 := mul_neg_of_pos_of_neg hc hb
        simp [pdiv, pmul, hb, this, hc0, hc]
      · have : ¬(c * b < 0) := not_lt.mpr (mul_nonneg hc.le (not_lt.mp hb))
        simp [pdiv, pmul, hb, this, hc0, hc]
    | pinf => simp [pdiv, pmul, hc0, hc]
    | ninf => simp [pdiv, pmul, hc0, hc]
    | nan => simp [pdiv, pmul, hc0, hc]
  | nan => simp [pdiv, pmul]

lemma foldl_padd_pmul (c : ℚ) (hc : 0 < c) :
    ∀ (l : List PVal) (acc : PVal),
      (l.map (pmul (PVal.num c))).foldl padd (pmul (PVal.num c) acc) =
        pmul (PVal.num c) (l.foldl padd acc) := by
  intro l
  induction l with
  | nil => intro acc; rfl
  | cons x l ih =>
    intro acc
    simp only [List.map_cons, List.foldl_cons, ← pmul_num_padd c hc]
    exact ih (padd acc x)

lemma psum_scale (c : ℚ) (hc : 0 < c) (l : List PVal) :
    psum (l.map (pmul (PVal.num c))) = pmul (PVal.num c) (psum l) := by
  have h0 : pmul (PVal.num c) (PVal.num 0) = PVal.num 0 := by
    rw [pmul_num_num, mul_zero]
  have := foldl_padd_pmul c hc l (PVal.num 0)
  rw [h0] at this
  simpa [psum] using this

lemma rollingMean_scale (c : ℚ) (hc : 0 < c) (w : ℕ) (xs : List PVal) :
    rollingMean w (scaleSeries c xs) = scaleSeries c (rollingMean w xs) := by
  unfold rollingMean scaleSeries
  rw [List.length_map, List.map_map]
  apply List.map_congr_left
  intro t _
  by_cases hw : t + 1 < w
  · simp [hw]
  · simp only [hw, if_false, Function.comp_apply]
    rw [windowAt_map, psum_scale c hc, pdiv_pmul_num_left c hc]

lemma seriesDiv_scale_left (c : ℚ) (S B : List PVal) :
    seriesDiv (scaleSeries c S) B =
      List.zipWith (fun a b => pdiv (pmul (PVal.num c) a) b) S B := by
  unfold seriesDiv scaleSeries
  rw [List.zipWith_map_left]

lemma zipWith_pdiv_scale_cancel (c : ℚ) (hc : 0 < c) (A B : List PVal) :
    List.zipWith pdiv (scaleSeries c A) (scaleSeries c B) = List.zipWith pdiv A B := by
  unfold scaleSeries
  rw [List.zipWith_map_left, List.zipWith_map_right]
  have : (fun a b => pdiv (pmul (PVal.num c) a) (pmul (PVal.num c) b)) = pdiv := by
    funext a b
    exact pdiv_pmul_num_cancel c hc a b
  rw [this]

lemma rsRaw_scale (c : ℚ) (hc : 0 < c) (S B : List PVal) :
    rsRaw (scaleSeries c S) B = scaleSeries c (rsRaw S B) := by
  unfold rsRaw seriesDiv scaleSeries
  rw [List.zipWith_map_left, List.map_zipWith]
  have : (fun a b => pdiv (pmul (PVal.num c) a) b) =
      (fun a b => pmul (PVal.num c) (pdiv a b)) := by
    funext a b
    exact pdiv_pmul_num_left c hc a b
  rw [this]

lemma rsRatio_scale (c : ℚ) (hc : 0 < c) (S B : List PVal) :
    rsRatioSeries (scaleSeries c S) B = rsRatioSeries S B := by
  unfold rsRatioSeries
  rw [rsRaw_scale c hc, rollingMean_scale c hc]
  unfold seriesDiv
  rw [zipWith_pdiv_scale_cancel c hc]

/-! ## Synthetic index construction -/

lemma synthAccum_missing (tbl : List (String × List PVal)) :
    ∀ comps : List (String × ℚ), (∃ c ∈ comps, lookupCol tbl c.1 = none) →
      ∀ acc, synthAccum tbl comps acc = none := by
  intro comps
  induction comps with
  | nil => rintro ⟨c, hc, _⟩; simp at hc
  | cons c0 comps ih =>
    rintro ⟨c, hc, hnone⟩ acc
    rcases List.mem_cons.mp hc with rfl | hc2
    · simp [synthAccum, hnone]
    · cases hcol : lookupCol tbl c0.1 with
      | none => simp [synthAccum, hcol]
      | some col =>
        simp only [synthAccum, hcol]
        exact ih ⟨c, hc2, hnone⟩ _

lemma synthAccum_value (tbl : List (String × List PVal)) (idxLen t : ℕ)
    (_ht : t < idxLen) (prices : String → ℚ) :
    ∀ (comps : List (String × ℚ)) (acc : List PVal) (a : ℚ),
      (∀ c ∈ comps, ∃ col, lookupCol tbl c.1 = some col ∧ col.length = idxLen ∧
          col[t]? = some (PVal.num (prices c.1))) →
      acc.length = idxLen → acc[t]? = some (PVal.num a) →
      ∃ s, synthAccum tbl comps acc = some s ∧ s.length = idxLen ∧
        s[t]? = some (PVal.num (a + (comps.map fun c => c.2 * prices c.1).sum)) := by
  intro comps
  induction comps with
  | nil =>
    intro acc a _ hl ha
    exact ⟨acc, rfl, hl, by simpa using ha⟩
  | cons c0 comps ih =>
    intro acc a hcomp hl ha
    obtain ⟨col, hcol, hclen, hct⟩ := hcomp c0 (List.mem_cons_self c0 comps)
    have hmap : (col.map fun v => pmul v (PVal.num c0.2))[t]? =
        some (pmul (PVal.num (prices c0.1)) (PVal.num c0.2)) := by
      rw [List.getElem?_map, hct]
      rfl
    have hacc2 : (List.zipWith padd acc (col.map fun v => pmul v (PVal.num c0.2)))[t]? =
        some (PVal.num (a + prices c0.1 * c0.2)) := by
      rw [zipWith_getElem?_some padd _ _ t _ _ ha hmap, pmul_num_num, padd_num_num]
    have hacc2len : (List.zipWith padd acc (col.map fun v => pmul v (PVal.num c0.2))).length
        = idxLen := by
      rw [List.length_zipWith, List.length_map, hl, hclen, min_self]
    obtain ⟨s, hs1, hs2, hs3⟩ := ih _ (a + prices c0.1 * c0.2)
      (fun c hc => hcomp c (List.mem_cons_of_mem _ hc)) hacc2len hacc2
    refine ⟨s, ?_, hs2, ?_⟩
    · simp only [synthAccum, hcol]
      exact hs1
    · rw [hs3]
      have : a + prices c0.1 * c0.2 + (comps.map fun c => c.2 * prices c.1).sum =
          a + ((c0 :: comps).map fun c => c.2 * prices c.1).sum := by
        simp only [List.map_cons, List.sum_cons]
        ring
      rw [this]

lemma rrgLookup_filterMap_none (benchmark name : String)
    (tbl : List (String × List PVal)) (hnone : lookupCol tbl name = none) :
    ∀ sectors, rrgLookup name (calculate_rrg_components benchmark sectors tbl) = none := by
  intro sectors
  induction sectors with
  | nil => rfl
  | cons sc sectors ih =>
    have hne : ∀ s, lookupCol tbl sc.1 = some s → (sc.1 == name) = false := by
      intro s hs
      apply beq_eq_false_iff_ne.mpr
      intro hcon
      rw [hcon, hnone] at hs
      cases hs
    unfold calculate_rrg_components at ih ⊢
    rw [List.filterMap_cons]
    cases hs : lookupCol tbl sc.1 with
    | none => exact ih
    | some s =>
      cases hb : lookupCol tbl benchmark with
      | none =>
        rw [hb] at ih
        exact ih
      | some b =>
        rw [hb] at ih
        simp only [rrgLookup, List.find?_cons, hne s hs]
        exact ih

/-! ## Claim theorems -/

/-- Claim C1, counterexample: with 69 positive aligned observations the
last date of `rs_momentum` is already a defined value (100 for a constant
ratio), not undefined — the claimed 70-observation minimum is one too
many, since the 10-observation momentum window includes the current date
(RS-Ratio values exist at indices 59..68, exactly ten of them). -/
theorem c1_counterexample :
    (rsMomSeries (List.replicate 69 (PVal.num 1))
        (List.replicate 69 (PVal.num 1)))[68]? = some (PVal.num 100)
    ∧ PVal.num 100 ≠ PVal.nan :=
  ⟨by decide, by decide⟩

/-- Claim C1 (amended): for a date-aligned pair of positive price series,
with exactly 68 observations `rs_momentum` is undefined at every date,
and with exactly 69 observations the last date yields a defined value —
RS-Momentum needs 69 ratio observations (60 for the first RS-Ratio plus
9 additional ones). -/
theorem c1_rrg_min_history :
    ∀ (S B : List PVal), S.length = B.length → PosSeries S → PosSeries B →
      ((S.length = 68 → ∀ t : ℕ, t < 68 → (rsMomSeries S B)[t]? = some PVal.nan)
        ∧ (S.length = 69 → ∃ q : ℚ, 0 < q ∧ (rsMomSeries S B)[68]? = some (PVal.num q))) := by
  intro S B hlen hS hB
  constructor
  · intro h68 t ht
    have htlen : t < S.length := by omega
    have htr : t < (rsRatioSeries S B).length := by
      rw [rsRatio_length hlen]; exact htlen
    have hrr : (rsRatioSeries S B)[t]? = some (rsRatioSeries S B)[t] :=
      List.getElem?_eq_getElem htr
    have hmm : (rollingMean 10 (rsRatioSeries S B))[t]? = some PVal.nan :=
      momMA_nan hlen htlen (by omega)
    rw [rsMomSeries, seriesDiv, List.getElem?_map,
      zipWith_getElem?_some pdiv _ _ t _ _ hrr hmm]
    simp
  · intro h69
    have h68lt : (68 : ℕ) < S.length := by omega
    obtain ⟨a, ha, harr⟩ := rsRatio_pos hlen hS hB h68lt (by omega)
    obtain ⟨m, hm, hmm⟩ := momMA_pos hlen hS hB h68lt (by omega)
    refine ⟨100 * (a / m), by positivity, ?_⟩
    rw [rsMomSeries, seriesDiv, List.getElem?_map,
      zipWith_getElem?_some pdiv _ _ 68 _ _ harr hmm,
      pdiv_num_num a m (ne_of_gt hm)]
    simp [pmul_num_num]

/-- Witness for C1: the amended theorem applied to concrete positive
69-observation series. -/
theorem c1_witness :
    ∃ q : ℚ, 0 < q ∧
      (rsMomSeries (List.replicate 69 (PVal.num 2))
        (List.replicate 69 (PVal.num 4)))[68]? = some (PVal.num q) := by
  have hp2 : PosSeries (List.replicate 69 (PVal.num 2)) := by
    intro v hv
    rw [List.eq_of_mem_replicate hv]
    exact ⟨2, by norm_num, rfl⟩
  have hp4 : PosSeries (List.replicate 69 (PVal.num 4)) := by
    intro v hv
    rw [List.eq_of_mem_replicate hv]
    exact ⟨4, by norm_num, rfl⟩
  exact (c1_rrg_min_history (List.replicate 69 (PVal.num 2))
    (List.replicate 69 (PVal.num 4)) rfl hp2 hp4).2 rfl

/-- Claim C2, counterexample: on the input series `[1, NaN]` (first
observation defined), the pandas EMA at `t = 1` is the carried value 1,
while the claimed recurrence `α·R[1] + (1-α)·EMA[0]` is undefined (NaN):
pandas `ewm` skips missing values instead of propagating them. -/
theorem c2_counterexample :
    (ewmAdjustFalse 20 [PVal.num 1, PVal.nan])[1]? = some (PVal.num 1)
    ∧ padd (pmul (PVal.num (2 / 21)) PVal.nan)
        (pmul (PVal.num (1 - 2 / 21)) (PVal.num 1)) = PVal.nan
    ∧ PVal.num 1 ≠ PVal.nan :=
  ⟨by decide, by decide, by decide⟩

/-- Claim C2 (amended): for every fully defined input series and window
`W ∈ {20, 60, 120}`, the pandas `ewm(span=W, adjust=False).mean()` equals
the spec recurrence `EMA[0] = x[0]`, `EMA[t] = α·x[t] + (1-α)·EMA[t-1]`
with `α = 2/(W+1)`, exactly. -/
theorem c2_ema_recurrence :
    ∀ (xs : List PVal), (∀ v ∈ xs, ∃ q : ℚ, v = PVal.num q) →
      ∀ w : ℕ, (w = 20 ∨ w = 60 ∨ w = 120) →
        ewmAdjustFalse w xs = (emaSpecQ (2 / (w + 1)) (xs.map toRat)).map PVal.num := by
  intro xs hdef w _
  cases xs with
  | nil => rfl
  | cons x rest =>
    obtain ⟨q, rfl⟩ := hdef x (List.mem_cons_self x rest)
    have htail := ewmLoop_num (2 / ((w : ℚ) + 1)) rest
      (fun v hv => hdef v (List.mem_cons_of_mem _ hv)) q 1 le_rfl
    simp only [ewmAdjustFalse, emaSpecQ, List.map_cons, toRat, reduceCtorEq,
      if_false, le_refl, if_true]
    rw [htail]

/-- Witness for C2: the amended theorem applied to a concrete 2-point
fully defined series at window 20. -/
theorem c2_witness :
    ewmAdjustFalse 20 [PVal.num 4, PVal.num 2] =
      (emaSpecQ (2 / ((20 : ℕ) + 1)) ([PVal.num 4, PVal.num 2].map toRat)).map PVal.num := by
  apply c2_ema_recurrence [PVal.num 4, PVal.num 2] ?_ 20 (Or.inl rfl)
  intro v hv
  rcases List.mem_cons.mp hv with rfl | hv2
  · exact ⟨4, rfl⟩
  · rcases List.mem_cons.mp hv2 with rfl | hv3
    · exact ⟨2, rfl⟩
    · simp at hv3

/-- Claim C3 (confirmed): scaling the sector series by any positive
constant, with the benchmark unchanged, leaves the RS-Ratio series, the
RS-Momentum series, the whole per-sector record (current point and
5-point trail included) and the derived quadrant color unchanged. -/
theorem c3_scale_invariance :
    ∀ (c : ℚ), 0 < c → ∀ (S B : List PVal) (sec cfg : String),
      rsRatioSeries (scaleSeries c S) B = rsRatioSeries S B
      ∧ rsMomSeries (scaleSeries c S) B = rsMomSeries S B
      ∧ rrgEntryOf sec cfg (scaleSeries c S) B = rrgEntryOf sec cfg S B
      ∧ get_quadrant_color ((rsRatioSeries (scaleSeries c S) B).getLastD PVal.nan)
          ((rsMomSeries (scaleSeries c S) B).getLastD PVal.nan)
        = get_quadrant_color ((rsRatioSeries S B).getLastD PVal.nan)
          ((rsMomSeries S B).getLastD PVal.nan) := by
  intro c hc S B sec cfg
  have h1 := rsRatio_scale c hc S B
  have h2 : rsMomSeries (scaleSeries c S) B = rsMomSeries S B := by
    unfold rsMomSeries
    rw [h1]
  refine ⟨h1, h2, ?_, by rw [h1, h2]⟩
  unfold rrgEntryOf
  rw [h1, h2]

/-- Witness for C3: the scale-invariance theorem at `c = 2` on concrete
one-point series. -/
theorem c3_witness :
    rsRatioSeries (scaleSeries 2 [PVal.num 4]) [PVal.num 2]
        = rsRatioSeries [PVal.num 4] [PVal.num 2]
    ∧ rsMomSeries (scaleSeries 2 [PVal.num 4]) [PVal.num 2]
        = rsMomSeries [PVal.num 4] [PVal.num 2]
    ∧ rrgEntryOf "ERH" "T" (scaleSeries 2 [PVal.num 4]) [PVal.num 2]
        = rrgEntryOf "ERH" "T" [PVal.num 4] [PVal.num 2]
    ∧ get_quadrant_color
          ((rsRatioSeries (scaleSeries 2 [PVal.num 4]) [PVal.num 2]).getLastD PVal.nan)
          ((rsMomSeries (scaleSeries 2 [PVal.num 4]) [PVal.num 2]).getLastD PVal.nan)
        = get_quadrant_color
          ((rsRatioSeries [PVal.num 4] [PVal.num 2]).getLastD PVal.nan)
          ((rsMomSeries [PVal.num 4] [PVal.num 2]).getLastD PVal.nan) :=
  c3_scale_invariance 2 (by norm_num) [PVal.num 4] [PVal.num 2] "ERH" "T"

/-- Claim C4 (confirmed): on finite coordinates the quadrant classifier
always returns one of the four colors; it returns Leading exactly when
`x > 100 ∧ y > 100`, Improving exactly when `x < 100 ∧ y > 100`, Lagging
exactly when `x < 100 ∧ y < 100`, and Weakening in every other case; the
boundary points `(100,100)`, `(105,100)` and `(100,105)` all map to
Weakening. -/
theorem c4_quadrant_totality :
    (∀ x y : ℚ,
      (get_quadrant_color (PVal.num x) (PVal.num y) = COLORS_leading ∨
        get_quadrant_color (PVal.num x) (PVal.num y) = COLORS_improving ∨
        get_quadrant_color (PVal.num x) (PVal.num y) = COLORS_lagging ∨
        get_quadrant_color (PVal.num x) (PVal.num y) = COLORS_weakening)
      ∧ (get_quadrant_color (PVal.num x) (PVal.num y) = COLORS_leading ↔
          100 < x ∧ 100 < y)
      ∧ (get_quadrant_color (PVal.num x) (PVal.num y) = COLORS_improving ↔
          x < 100 ∧ 100 < y)
      ∧ (get_quadrant_color (PVal.num x) (PVal.num y) = COLORS_lagging ↔
          x < 100 ∧ y < 100)
      ∧ (get_quadrant_color (PVal.num x) (PVal.num y) = COLORS_weakening ↔
          ¬(100 < x ∧ 100 < y) ∧ ¬(x < 100 ∧ 100 < y) ∧ ¬(x < 100 ∧ y < 100)))
    ∧ get_quadrant_color (PVal.num 100) (PVal.num 100) = COLORS_weakening
    ∧ get_quadrant_color (PVal.num 105) (PVal.num 100) = COLORS_weakening
    ∧ get_quadrant_color (PVal.num 100) (PVal.num 105) = COLORS_weakening := by
  refine ⟨?_, by decide, by decide, by decide⟩
  intro x y
  obtain ⟨d1, d2, d3, d4, d5, d6⟩ := colors_distinct
  rw [gqc_num x y]
  by_cases h1 : 100 < x ∧ 100 < y
  · obtain ⟨hx, hy⟩ := h1
    have hnx : ¬x < 100 := lt_asymm hx
    have hny : ¬y < 100 := lt_asymm hy
    simp [hx, hy, hnx, hny, d1, d2, d3]
  · by_cases h2 : x < 100 ∧ 100 < y
    · obtain ⟨hx, hy⟩ := h2
      have hnx : ¬(100 : ℚ) < x := lt_asymm hx
      have hny : ¬y < 100 := lt_asymm hy
      simp [hx, hy, hnx, hny, d1.symm, d4, d5]
    · by_cases h3 : x < 100 ∧ y < 100
      · obtain ⟨hx, hy⟩ := h3
        have hnx : ¬(100 : ℚ) < x := lt_asymm hx
        have hny : ¬(100 : ℚ) < y := lt_asymm hy
        simp [hx, hy, hnx, hny, d2.symm, d4.symm, d6]
      · simp [h1, h2, h3, d3.symm, d5.symm, d6.symm]

/-- Claim C5 (confirmed): with the current value and all six moving
averages defined, the classifier returns StrongBullish exactly when all
six averages sit strictly below the current value, StrongBearish exactly
when none does, and otherwise Ranging(floor, ceiling); by the sorted
ascending scan, floor is the name at position `support_count - 1` of the
value-sorted pair list (the last average below the current value) and
ceiling the name at position `support_count` (the first average not
below it, where the scan stops). -/
theorem c5_ma_status :
    ∀ (vq : ℚ) (r : MARow), (∀ p ∈ masList r, ∃ q : ℚ, p.2 = PVal.num q) →
      (get_ma_status_text (PVal.num vq) r = MAStatus.strongBullish ↔
          supportCount (PVal.num vq) r = 6)
      ∧ (get_ma_status_text (PVal.num vq) r = MAStatus.strongBearish ↔
          supportCount (PVal.num vq) r = 0)
      ∧ (1 ≤ supportCount (PVal.num vq) r → supportCount (PVal.num vq) r ≤ 5 →
          get_ma_status_text (PVal.num vq) r =
            MAStatus.ranging
              ((psort (masList r)).getD (supportCount (PVal.num vq) r - 1) ("", PVal.nan)).1
              ((psort (masList r)).getD (supportCount (PVal.num vq) r) ("", PVal.nan)).1) := by
  intro vq r hdef
  have hsc6 : supportCount (PVal.num vq) r ≤ 6 := by
    have := @List.countP_le_length (String × PVal) (fun p => pgtB (PVal.num vq) p.2)
      (masList r)
    simpa [supportCount, masList] using this
  have hbull : supportCount (PVal.num vq) r = 6 →
      get_ma_status_text (PVal.num vq) r = MAStatus.strongBullish := by
    intro h
    simp [get_ma_status_text, h]
  have hbear : supportCount (PVal.num vq) r = 0 →
      get_ma_status_text (PVal.num vq) r = MAStatus.strongBearish := by
    intro h
    simp [get_ma_status_text, h]
  have hranging : 1 ≤ supportCount (PVal.num vq) r → supportCount (PVal.num vq) r ≤ 5 →
      get_ma_status_text (PVal.num vq) r =
        MAStatus.ranging
          ((psort (masList r)).getD (supportCount (PVal.num vq) r - 1) ("", PVal.nan)).1
          ((psort (masList r)).getD (supportCount (PVal.num vq) r) ("", PVal.nan)).1 := by
    intro h1 h5
    have hd2 : ∀ x ∈ psort (masList r), ∃ q : ℚ, x.2 = PVal.num q :=
      fun x hx => hdef x ((mem_psort _ x).mp hx)
    have hsorted := sortedKeys_psort (masList r) hdef
    have hcount : supportCount (PVal.num vq) r =
        (psort (masList r)).countP (fun p => pgtB (PVal.num vq) p.2) := by
      rw [countP_psort]
      rfl
    have hlenp : (psort (masList r)).length = 6 := by
      rw [length_psort]
      rfl
    have hscan := scanFC_sorted vq (psort (masList r)) hd2 hsorted
      (supportCount (PVal.num vq) r) hcount h1 (by omega) none
    simp only [get_ma_status_text, if_neg (by omega : ¬supportCount (PVal.num vq) r = 6),
      if_neg (by omega : ¬supportCount (PVal.num vq) r = 0), hscan]
  refine ⟨⟨fun hres => ?_, hbull⟩, ⟨fun hres => ?_, hbear⟩, hranging⟩
  · by_contra hne
    by_cases h0 : supportCount (PVal.num vq) r = 0
    · rw [hbear h0] at hres
      cases hres
    · rw [hranging (by omega) (by omega)] at hres
      cases hres
  · by_contra hne
    by_cases h6 : supportCount (PVal.num vq) r = 6
    · rw [hbull h6] at hres
      cases hres
    · rw [hranging (by omega) (by omega)] at hres
      cases hres

/-- The spec's own boundary example: current value 100 with the six
averages {95, 98, 99, 101, 102, 103}. -/
def rowC5 : MARow :=
  { sma20 := PVal.num 95, ema20 := PVal.num 98, sma60 := PVal.num 99,
    ema60 := PVal.num 101, sma120 := PVal.num 102, ema120 := PVal.num 103 }

/-- Witness for C5: the theorem at the spec's boundary example, where
support_count is 3, the floor is the 99-average (SMA60) and the ceiling
is the 101-average (EMA60). -/
theorem c5_witness :
    get_ma_status_text (PVal.num 100) rowC5 = MAStatus.ranging "SMA60" "EMA60" := by
  have hdef : ∀ p ∈ masList rowC5, ∃ q : ℚ, p.2 = PVal.num q := by
    intro p hp
    simp only [masList, rowC5, List.mem_cons, List.not_mem_nil, or_false] at hp
    rcases hp with rfl | rfl | rfl | rfl | rfl | rfl <;> exact ⟨_, rfl⟩
  have h := (c5_ma_status 100 rowC5 hdef).2.2 (by decide) (by decide)
  rw [h]
  decide

/-- Claim C6, counterexample: with SMA20 undefined and the current value
below all the defined averages, the classifier returns StrongBearish
(support_count is 0 because the NaN comparison is false), not
Indeterminate — an undefined moving average does not force the
Indeterminate answer. -/
theorem c6_counterexample :
    get_ma_status_text (PVal.num 0)
        { sma20 := PVal.nan, ema20 := PVal.num 1, sma60 := PVal.num 2,
          ema60 := PVal.num 3, sma120 := PVal.num 4, ema120 := PVal.num 5 } =
      MAStatus.strongBearish := by
  decide

/-- Claim C6 (amended): an undefined moving average never contributes to
support_count (every comparison against it is false, so it is excluded
from the support-count comparisons), but the classifier does not return
Indeterminate just because an average is undefined: whenever
support_count is 0 it returns StrongBearish, undefined averages or not. -/
theorem c6_undefined_ma :
    ∀ (v : PVal) (r : MARow),
      supportCount v r =
        ((masList r).filter (fun p => p.2 ≠ PVal.nan)).countP (fun p => pgtB v p.2)
      ∧ (supportCount v r = 0 → get_ma_status_text v r = MAStatus.strongBearish) := by
  intro v r
  constructor
  · have hgen : ∀ l : List (String × PVal),
        l.countP (fun p => pgtB v p.2) =
          (l.filter (fun p => p.2 ≠ PVal.nan)).countP (fun p => pgtB v p.2) := by
      intro l
      induction l with
      | nil => rfl
      | cons p l ih =>
        by_cases h : p.2 = PVal.nan
        · simp [List.countP_cons, List.filter_cons, h, ih]
        · simp [List.countP_cons, List.filter_cons, h, ih]
    exact hgen (masList r)
  · intro h
    simp [get_ma_status_text, h]

/-- Witness for C6: the amended theorem at a row whose EMA120 is
undefined and whose current value is below every defined average. -/
theorem c6_witness :
    get_ma_status_text (PVal.num 1)
        { sma20 := PVal.num 5, ema20 := PVal.num 6, sma60 := PVal.num 7,
          ema60 := PVal.num 8, sma120 := PVal.num 9, ema120 := PVal.nan } =
      MAStatus.strongBearish :=
  (c6_undefined_ma (PVal.num 1)
    { sma20 := PVal.num 5, ema20 := PVal.num 6, sma60 := PVal.num 7,
      ema60 := PVal.num 8, sma120 := PVal.num 9, ema120 := PVal.nan }).2 (by decide)

/-- Claim C7, counterexample: at a date where the denominator is zero and
the numerator is 1, the ratio is positive infinity — a non-missing float
value that participates in later comparisons — not the undefined (NaN)
state the claim requires for every zero-denominator date. -/
theorem c7_counterexample :
    (seriesDiv [PVal.num 1] [PVal.num 0])[0]? = some PVal.pinf
    ∧ PVal.pinf ≠ PVal.nan :=
  ⟨by decide, by decide⟩

/-- Claim C7 (amended): the ratio series is undefined at every date where
either input is missing, and at a zero-denominator date exactly when the
numerator is zero as well; with a zero denominator and a nonzero
numerator the ratio is a signed infinity (by the numerator's sign), and
with a nonzero denominator it is the exact quotient.  No arithmetic
error is raised in any case (the operation is total). -/
theorem c7_ratio_undefined :
    ∀ (N D : List PVal) (t : ℕ),
      (t < N.length → t < D.length →
        (N[t]? = some PVal.nan ∨ D[t]? = some PVal.nan) →
        (seriesDiv N D)[t]? = some PVal.nan)
      ∧ (∀ a b : ℚ, N[t]? = some (PVal.num a) → D[t]? = some (PVal.num b) → b = 0 →
          (seriesDiv N D)[t]? =
            some (if a = 0 then PVal.nan else if 0 < a then PVal.pinf else PVal.ninf))
      ∧ (∀ a b : ℚ, N[t]? = some (PVal.num a) → D[t]? = some (PVal.num b) → b ≠ 0 →
          (seriesDiv N D)[t]? = some (PVal.num (a / b))) := by
  intro N D t
  refine ⟨?_, ?_, ?_⟩
  · intro htN htD hnan
    have hN : N[t]? = some N[t] := List.getElem?_eq_getElem htN
    have hD : D[t]? = some D[t] := List.getElem?_eq_getElem htD
    rcases hnan with h | h
    · have : N[t] = PVal.nan := by rw [hN] at h; injection h
      rw [seriesDiv, zipWith_getElem?_some pdiv _ _ t _ _ hN hD, this]
      simp
    · have : D[t] = PVal.nan := by rw [hD] at h; injection h
      rw [seriesDiv, zipWith_getElem?_some pdiv _ _ t _ _ hN hD, this]
      simp
  · intro a b hN hD hb0
    subst hb0
    rw [seriesDiv, zipWith_getElem?_some pdiv _ _ t _ _ hN hD]
    simp [pdiv]
  · intro a b hN hD hb0
    rw [seriesDiv, zipWith_getElem?_some pdiv _ _ t _ _ hN hD,
      pdiv_num_num a b hb0]

/-- Witness for C7: the amended theorem at concrete two-point series with
a missing numerator at the first date and an exact quotient at the
second. -/
theorem c7_witness :
    (seriesDiv [PVal.nan, PVal.num 1] [PVal.num 2, PVal.num 2])[0]? = some PVal.nan
    ∧ (seriesDiv [PVal.nan, PVal.num 1] [PVal.num 2, PVal.num 2])[1]? =
        some (PVal.num (1 / 2)) := by
  constructor
  · exact (c7_ratio_undefined [PVal.nan, PVal.num 1] [PVal.num 2, PVal.num 2] 0).1
      (by decide) (by decide) (Or.inl rfl)
  · exact (c7_ratio_undefined [PVal.nan, PVal.num 1] [PVal.num 2, PVal.num 2] 1).2.2
      1 2 rfl rfl (by norm_num)

/-- Claim C8 (confirmed): for a fully defined input series and window
`W ∈ {20, 60, 120}`, `SMA_W[t]` is the arithmetic mean of the trailing
`W` observations when `t ≥ W-1` (zero-indexed) and is undefined exactly
when `t < W-1`. -/
theorem c8_sma :
    ∀ (xs : List PVal), (∀ v ∈ xs, ∃ q : ℚ, v = PVal.num q) →
      ∀ w : ℕ, (w = 20 ∨ w = 60 ∨ w = 120) → ∀ t : ℕ, t < xs.length →
        ((rollingMean w xs)[t]? = some (if t + 1 < w then PVal.nan
            else PVal.num (((windowAt w xs t).map toRat).sum / w))
          ∧ ((rollingMean w xs)[t]? = some PVal.nan ↔ t + 1 < w)) := by
  intro xs hdef w hw t ht
  have hw0 : (w : ℚ) ≠ 0 := by rcases hw with rfl | rfl | rfl <;> norm_num
  have hkey : (rollingMean w xs)[t]? = some (if t + 1 < w then PVal.nan
      else PVal.num (((windowAt w xs t).map toRat).sum / w)) := by
    rw [rollingMean_getElem? w xs t ht]
    by_cases hcase : t + 1 < w
    · rw [if_pos hcase, if_pos hcase]
    · rw [if_neg hcase, if_neg hcase,
        psum_num (fun v hv => hdef v (windowAt_mem hv)), pdiv_num_num _ _ hw0]
  refine ⟨hkey, ?_⟩
  rw [hkey]
  by_cases hcase : t + 1 < w
  · simp [hcase]
  · simp [hcase]

/-- Witness for C8: the theorem on a constant 20-point series — defined
with value 3 at index 19, undefined at index 5. -/
theorem c8_witness :
    (rollingMean 20 (List.replicate 20 (PVal.num 3)))[19]? = some (PVal.num 3)
    ∧ (rollingMean 20 (List.replicate 20 (PVal.num 3)))[5]? = some PVal.nan := by
  have hdef : ∀ v ∈ List.replicate 20 (PVal.num 3), ∃ q : ℚ, v = PVal.num q := by
    intro v hv
    rw [List.eq_of_mem_replicate hv]
    exact ⟨3, rfl⟩
  constructor
  · have h := (c8_sma (List.replicate 20 (PVal.num 3)) hdef 20 (Or.inl rfl) 19
      (by simp)).1
    rw [h]
    decide
  · have h := (c8_sma (List.replicate 20 (PVal.num 3)) hdef 20 (Or.inl rfl) 5
      (by simp)).1
    rw [h]
    decide

/-- Claim C9 (confirmed): at a date where every component has a defined
price, the synthetic value is exactly the weighted sum of the component
prices; and when any component column is entirely missing from the price
table, the synthesis yields nothing, the table is left unchanged, and the
synthetic ticker is absent from the RRG records (the per-sector skip at
line 150 never finds its column) — the failure is local, no exception
escapes. -/
theorem c9_synthetic :
    (∀ (comps : List (String × ℚ)) (tbl : List (String × List PVal)) (idxLen t : ℕ)
        (prices : String → ℚ), t < idxLen →
        (∀ c ∈ comps, ∃ col, lookupCol tbl c.1 = some col ∧ col.length = idxLen ∧
            col[t]? = some (PVal.num (prices c.1))) →
        ∃ s, synthesize comps tbl idxLen = some s ∧ s.length = idxLen ∧
          s[t]? = some (PVal.num ((comps.map fun c => c.2 * prices c.1).sum)))
    ∧ (∀ (name : String) (comps : List (String × ℚ)) (tbl : List (String × List PVal))
        (idxLen : ℕ) (benchmark : String) (sectors : List (String × String)),
        (∃ c ∈ comps, lookupCol tbl c.1 = none) →
        lookupCol tbl name = none →
        synthesize comps tbl idxLen = none
        ∧ addSynthetic name comps tbl idxLen = tbl
        ∧ rrgLookup name (calculate_rrg_components benchmark sectors
            (addSynthetic name comps tbl idxLen)) = none) := by
  constructor
  · intro comps tbl idxLen t prices ht hcomp
    have hrep : (List.replicate idxLen (PVal.num 0)).length = idxLen :=
      List.length_replicate idxLen _
    have hrept : (List.replicate idxLen (PVal.num 0))[t]? = some (PVal.num 0) := by
      rw [List.getElem?_replicate, if_pos ht]
    obtain ⟨s, h1, h2, h3⟩ := synthAccum_value tbl idxLen t ht prices comps
      (List.replicate idxLen (PVal.num 0)) 0 hcomp hrep hrept
    refine ⟨s, h1, h2, ?_⟩
    rw [h3, zero_add]
  · intro name comps tbl idxLen benchmark sectors hmissing hnone
    have hsynth : synthesize comps tbl idxLen = none :=
      synthAccum_missing tbl comps hmissing _
    have hadd : addSynthetic name comps tbl idxLen = tbl := by
      rw [addSynthetic, hsynth]
    refine ⟨hsynth, hadd, ?_⟩
    rw [hadd]
    exact rrgLookup_filterMap_none benchmark name tbl hnone sectors

/-- The spec's synthesis example: weights 0.35/0.35/0.30 on same-day
prices 100/80/60. -/
def tblC9 : List (String × List PVal) :=
  [("PEJ", [PVal.num 100]), ("XHB", [PVal.num 80]), ("XRT", [PVal.num 60])]

def compsC9 : List (String × ℚ) :=
  [("PEJ", 35 / 100), ("XHB", 35 / 100), ("XRT", 3 / 10)]

def pricesC9 : String → ℚ :=
  fun k => if k = "PEJ" then 100 else if k = "XHB" then 80 else 60

/-- Witness for C9: the weighted sum is exactly 81 on the spec's example,
and dropping the XRT column from the table excludes the synthetic ticker
from the RRG output. -/
theorem c9_witness :
    (∃ s, synthesize compsC9 tblC9 1 = some s ∧ s.length = 1 ∧
      s[0]? = some (PVal.num 81))
    ∧ rrgLookup "ERH" (calculate_rrg_components "SPY" [("ERH", "T")]
        (addSynthetic "ERH" compsC9 [("PEJ", [PVal.num 100])] 1)) = none := by
  constructor
  · have hcomp : ∀ c ∈ compsC9, ∃ col, lookupCol tblC9 c.1 = some col ∧
        col.length = 1 ∧ col[0]? = some (PVal.num (pricesC9 c.1)) := by
      intro c hc
      simp only [compsC9, List.mem_cons, List.not_mem_nil, or_false] at hc
      rcases hc with rfl | rfl | rfl
      · exact ⟨[PVal.num 100], by decide, rfl, by decide⟩
      · exact ⟨[PVal.num 80], by decide, rfl, by decide⟩
      · exact ⟨[PVal.num 60], by decide, rfl, by decide⟩
    obtain ⟨s, h1, h2, h3⟩ := c9_synthetic.1 compsC9 tblC9 1 0 pricesC9
      (by norm_num) hcomp
    refine ⟨s, h1, h2, ?_⟩
    rw [h3]
    decide
  · exact (c9_synthetic.2 "ERH" compsC9 [("PEJ", [PVal.num 100])] 1 "SPY"
      [("ERH", "T")] ⟨("XHB", 35 / 100), by decide, by decide⟩ (by decide)).2.2

/-- Claim C10 (confirmed): when either current RRG coordinate of a sector
is NaN, every comparison against 100 is false, so the quadrant color
falls through to Weakening, and the sector's record is excluded from both
the Leading and the Improving subsets collected for the notification
digest. -/
theorem c10_nan_handling :
    ∀ (entries : List (String × RRGEntry)) (p : String × RRGEntry), p ∈ entries →
      (p.2.current_x = PVal.nan ∨ p.2.current_y = PVal.nan) →
      (get_quadrant_color p.2.current_x p.2.current_y = COLORS_weakening
        ∧ p ∉ leadingEntries entries ∧ p ∉ improvingEntries entries) := by
  intro entries p hmem hnan
  have hlead : (pgtB p.2.current_x (PVal.num 100) && pgtB p.2.current_y (PVal.num 100))
      = false := by
    rcases hnan with h | h <;> rw [h] <;> simp
  have himp : (pltB p.2.current_x (PVal.num 100) && pgtB p.2.current_y (PVal.num 100))
      = false := by
    rcases hnan with h | h <;> rw [h] <;> simp [pltB]
  refine ⟨?_, ?_, ?_⟩
  · rcases hnan with h | h <;> rw [get_quadrant_color, h] <;> simp [pltB]
  · intro hc
    have h2 := (List.mem_filter.mp hc).2
    rw [leadingEntries] at hc
    simp only [List.mem_filter, hlead] at hc
    exact absurd hc.2 (by simp)
  · intro hc
    rw [improvingEntries] at hc
    simp only [List.mem_filter, himp] at hc
    exact absurd hc.2 (by simp)

/-- A sector record with an undefined current RS-Ratio. -/
def entryC10 : RRGEntry :=
  { chart_label := "E", display_name := "ERH E", x := [], y := [],
    current_x := PVal.nan, current_y := PVal.num 105 }

/-- Witness for C10: the theorem on a one-entry record list whose current
RS-Ratio is NaN. -/
theorem c10_witness :
    get_quadrant_color entryC10.current_x entryC10.current_y = COLORS_weakening
    ∧ ("ERH", entryC10) ∉ leadingEntries [("ERH", entryC10)]
    ∧ ("ERH", entryC10) ∉ improvingEntries [("ERH", entryC10)] :=
  c10_nan_handling [("ERH", entryC10)] ("ERH", entryC10)
    (List.mem_singleton.mpr rfl) (Or.inl rfl)
